import Mathlib

/-!
Verification of the USB EHCI host core (USBHost_t36) against its
natural-language specification.

The repository's `src/USBHost.h` provides the data-structure layout
(`setup_t`, `Device_t`, `Pipe_t`, `Transfer_t`), the inline
implementation of `USBHost::mk_setup` and of the default
`USBHostDriver::claim` / `USBHostDriver::control` capability methods.
Those are embedded here directly from the source.

The implementations of the resource pools, `new_Transfer`, the interrupt
dispatcher `isr`, the enumeration state machine and `claim_drivers` are
declared in the header but their definitions are not part of the sources
available here; for claims about them the behaviour is modelled from the
specification text, as marked in each definition's doc comment.
-/

namespace USBHost_t36

/-! ## setup_t and mk_setup (from src/USBHost.h lines 42-59 and 164-168)

The C union lays out 8 bytes of memory that can be read either as the
discrete USB SETUP fields (bmRequestType, bRequest, wValue, wIndex,
wLength, plus the combined wRequestAndType) or as two little-endian
32-bit words (word1 covering bytes 0-3, word2 covering bytes 4-7).
We embed the memory as the two 32-bit words, since `mk_setup` writes
exactly those, and define the byte view and the field view by
little-endian decoding of that memory. -/

structure setup_t where
  word1 : Nat
  word2 : Nat
  word1_lt : word1 < 2 ^ 32
  word2_lt : word2 < 2 ^ 32

/-- Byte `i` of the 8-byte SETUP packet memory, little-endian within
each 32-bit word: bytes 0-3 come from word1, bytes 4-7 from word2. -/
def setup_t.byte (s : setup_t) (i : Nat) : Nat :=
  if i < 4 then s.word1 / 2 ^ (8 * i) % 256
  else s.word2 / 2 ^ (8 * (i - 4)) % 256

/-- Field view: bmRequestType is byte 0. -/
def setup_t.bmRequestType (s : setup_t) : Nat := s.byte 0

/-- Field view: bRequest is byte 1. -/
def setup_t.bRequest (s : setup_t) : Nat := s.byte 1

/-- Field view: wRequestAndType is the little-endian 16-bit value at
bytes 0-1 (aliasing bmRequestType and bRequest). -/
def setup_t.wRequestAndType (s : setup_t) : Nat := s.byte 0 + 256 * s.byte 1

/-- Field view: wValue is the little-endian 16-bit value at bytes 2-3. -/
def setup_t.wValue (s : setup_t) : Nat := s.byte 2 + 256 * s.byte 3

/-- Field view: wIndex is the little-endian 16-bit value at bytes 4-5. -/
def setup_t.wIndex (s : setup_t) : Nat := s.byte 4 + 256 * s.byte 5

/-- Field view: wLength is the little-endian 16-bit value at bytes 6-7. -/
def setup_t.wLength (s : setup_t) : Nat := s.byte 6 + 256 * s.byte 7

/-- Two-word view, first word: little-endian 32-bit recomposition of
bytes 0-3. The aliasing claim is that this equals the stored word1. -/
def setup_t.word1View (s : setup_t) : Nat :=
  s.byte 0 + 256 * s.byte 1 + 65536 * s.byte 2 + 16777216 * s.byte 3

/-- Two-word view, second word: little-endian 32-bit recomposition of
bytes 4-7. -/
def setup_t.word2View (s : setup_t) : Nat :=
  s.byte 4 + 256 * s.byte 5 + 65536 * s.byte 6 + 16777216 * s.byte 7

/-- Embedding of `USBHost::mk_setup` (src/USBHost.h lines 164-168):
  s.word1 = bmRequestType | (bRequest << 8) | (wValue << 16);
  s.word2 = wIndex | (wLength << 16);
All five arguments are uint32_t, the arithmetic is 32-bit, and both
words of `s` are fully overwritten (the previous contents of `s` do not
matter, so no `s` argument is taken). -/
def mk_setup (bmRequestType bRequest wValue wIndex wLength : Nat) : setup_t where
  word1 := (bmRequestType ||| (bRequest <<< 8) ||| (wValue <<< 16)) % 2 ^ 32
  word2 := (wIndex ||| (wLength <<< 16)) % 2 ^ 32
  word1_lt := Nat.mod_lt _ (by norm_num)
  word2_lt := Nat.mod_lt _ (by norm_num)

/-- Bitwise-or of values occupying disjoint bit ranges is addition. -/
lemma lor_shiftLeft_eq_add {a : Nat} (b k : Nat) (ha : a < 2 ^ k) :
    a ||| b <<< k = b * 2 ^ k + a := by
  rw [Nat.shiftLeft_eq, Nat.lor_comm, Nat.mul_comm, ← Nat.mul_add_lt_is_or ha]

lemma mk_setup_word1 {bmRequestType bRequest wValue : Nat}
    (h1 : bmRequestType < 256) (h2 : bRequest < 256) (h3 : wValue < 65536)
    (wIndex wLength : Nat) :
    (mk_setup bmRequestType bRequest wValue wIndex wLength).word1 =
      wValue * 65536 + bRequest * 256 + bmRequestType := by
  show (bmRequestType ||| bRequest <<< 8 ||| wValue <<< 16) % 2 ^ 32 = _
  rw [lor_shiftLeft_eq_add bRequest 8 (by omega)]
  rw [lor_shiftLeft_eq_add wValue 16 (by omega)]
  have : wValue * 2 ^ 16 + (bRequest * 2 ^ 8 + bmRequestType) < 2 ^ 32 := by omega
  rw [Nat.mod_eq_of_lt this]
  ring

lemma mk_setup_word2 (bmRequestType bRequest wValue : Nat)
    {wIndex wLength : Nat} (h4 : wIndex < 65536) (h5 : wLength < 65536) :
    (mk_setup bmRequestType bRequest wValue wIndex wLength).word2 =
      wLength * 65536 + wIndex := by
  show (wIndex ||| wLength <<< 16) % 2 ^ 32 = _
  rw [lor_shiftLeft_eq_add wLength 16 (by omega)]
  exact Nat.mod_eq_of_lt (by omega)

/-- C1. For in-range arguments, after `mk_setup` the discrete-field view
reads back exactly the five argument values, `wRequestAndType` equals
bmRequestType with bRequest in the high byte, the 8-byte memory is the
little-endian USB wire layout bmRequestType(1), bRequest(1), wValue(2),
wIndex(2), wLength(2), and the two-word view recomposed from those bytes
is exactly the stored words (the views alias the same memory). -/
theorem mk_setup_spec (bmRequestType bRequest wValue wIndex wLength : Nat)
    (h1 : bmRequestType < 256) (h2 : bRequest < 256)
    (h3 : wValue < 65536) (h4 : wIndex < 65536) (h5 : wLength < 65536) :
    let s := mk_setup bmRequestType bRequest wValue wIndex wLength
    s.bmRequestType = bmRequestType ∧
    s.bRequest = bRequest ∧
    s.wValue = wValue ∧
    s.wIndex = wIndex ∧
    s.wLength = wLength ∧
    s.wRequestAndType = bmRequestType ||| bRequest <<< 8 ∧
    s.byte 0 = bmRequestType ∧
    s.byte 1 = bRequest ∧
    s.byte 2 = wValue % 256 ∧ s.byte 3 = wValue / 256 ∧
    s.byte 4 = wIndex % 256 ∧ s.byte 5 = wIndex / 256 ∧
    s.byte 6 = wLength % 256 ∧ s.byte 7 = wLength / 256 ∧
    s.word1View = s.word1 ∧ s.word2View = s.word2 := by
  intro s
  have e1 : s.word1 = wValue * 65536 + bRequest * 256 + bmRequestType :=
    mk_setup_word1 h1 h2 h3 wIndex wLength
  have e2 : s.word2 = wLength * 65536 + wIndex :=
    mk_setup_word2 bmRequestType bRequest wValue h4 h5
  have hra : bmRequestType ||| bRequest <<< 8 = bRequest * 256 + bmRequestType := by
    rw [lor_shiftLeft_eq_add bRequest 8 (by omega)]; norm_num
  have b0 : s.byte 0 = bmRequestType := by
    simp only [setup_t.byte, e1]; norm_num; omega
  have b1 : s.byte 1 = bRequest := by
    simp only [setup_t.byte, e1]; norm_num; omega
  have b2 : s.byte 2 = wValue % 256 := by
    simp only [setup_t.byte, e1]; norm_num; omega
  have b3 : s.byte 3 = wValue / 256 := by
    simp only [setup_t.byte, e1]; norm_num; omega
  have b4 : s.byte 4 = wIndex % 256 := by
    simp only [setup_t.byte, e2]; norm_num; omega
  have b5 : s.byte 5 = wIndex / 256 := by
    simp only [setup_t.byte, e2]; norm_num; omega
  have b6 : s.byte 6 = wLength % 256 := by
    simp only [setup_t.byte, e2]; norm_num; omega
  have b7 : s.byte 7 = wLength / 256 := by
    simp only [setup_t.byte, e2]; norm_num; omega
  refine ⟨?_, ?_, ?_, ?_, ?_, ?_, b0, b1, b2, b3, b4, b5, b6, b7, ?_, ?_⟩
  · exact b0
  · exact b1
  · simp only [setup_t.wValue, b2, b3]; omega
  · simp only [setup_t.wIndex, b4, b5]; omega
  · simp only [setup_t.wLength, b6, b7]; omega
  · simp only [setup_t.wRequestAndType, b0, b1, hra]; ring
  · simp only [setup_t.word1View, b0, b1, b2, b3, e1]; omega
  · simp only [setup_t.word2View, b4, b5, b6, b7, e2]; omega

/-- Witness for C1 at a concrete input: a GET_DESCRIPTOR-style request. -/
theorem mk_setup_spec_witness :
    (128 : Nat) < 256 ∧ (6 : Nat) < 256 ∧ (256 : Nat) < 65536 ∧
    (0 : Nat) < 65536 ∧ (18 : Nat) < 65536 ∧
    (let s := mk_setup 128 6 256 0 18
     s.bmRequestType = 128 ∧ s.bRequest = 6 ∧ s.wValue = 256 ∧
     s.wIndex = 0 ∧ s.wLength = 18 ∧
     s.wRequestAndType = 128 ||| 6 <<< 8 ∧
     s.byte 0 = 128 ∧ s.byte 1 = 6 ∧
     s.byte 2 = 256 % 256 ∧ s.byte 3 = 256 / 256 ∧
     s.byte 4 = 0 % 256 ∧ s.byte 5 = 0 / 256 ∧
     s.byte 6 = 18 % 256 ∧ s.byte 7 = 18 / 256 ∧
     s.word1View = s.word1 ∧ s.word2View = s.word2) :=
  ⟨by norm_num, by norm_num, by norm_num, by norm_num, by norm_num,
   mk_setup_spec 128 6 256 0 18 (by norm_num) (by norm_num) (by norm_num)
     (by norm_num) (by norm_num)⟩

/-! ## Resource pools (C3)

Modelled from the spec: the bodies of `USBHost::allocate_Device`,
`free_Device`, `allocate_Pipe`, `free_Pipe`, `allocate_Transfer` and
`free_Transfer` are not among the available sources (only their
declarations at src/USBHost.h lines 150-155).  Per the spec, each is a
fixed-capacity pool: allocate returns a free slot or signals exhaustion
(no blocking, no growth); free returns a slot to the free set.  The
state tracks the free slots and the live (handed-out) handles. -/

structure PoolState (n : Nat) where
  free : List (Fin n)
  live : List (Fin n)

/-- Initial pool: every slot free, no live handles. -/
def initPool (n : Nat) : PoolState n :=
  { free := List.finRange n, live := [] }

inductive PoolOp (n : Nat) where
  | alloc
  | free (h : Fin n)

/-- Modelled from the spec: one allocate or free operation.
Allocation hands out a free slot (or does nothing on exhaustion, which
the caller observes as failure); freeing a live handle returns it to the
free set.  Freeing a non-live handle is a caller programming error and
is modelled as a no-op that the invariant does not rely on. -/
def applyOp {n : Nat} (s : PoolState n) : PoolOp n → PoolState n
  | .alloc =>
    match s.free with
    | [] => s
    | h :: t => { free := t, live := h :: s.live }
  | .free h =>
    if h ∈ s.live then { free := h :: s.free, live := s.live.erase h } else s

def runPool {n : Nat} (s : PoolState n) : List (PoolOp n) → PoolState n
  | [] => s
  | op :: ops => runPool (applyOp s op) ops

/-- Pool soundness invariant: no slot appears twice among the live
handles and the free list together. -/
def PoolInv {n : Nat} (s : PoolState n) : Prop :=
  (s.live ++ s.free).Nodup

lemma initPool_inv (n : Nat) : PoolInv (initPool n) := by
  simp [PoolInv, initPool, List.nodup_finRange]

lemma applyOp_inv {n : Nat} (s : PoolState n) (op : PoolOp n)
    (hs : PoolInv s) : PoolInv (applyOp s op) := by
  cases op with
  | alloc =>
    unfold PoolInv applyOp
    cases hfree : s.free with
    | nil => exact hs
    | cons h t =>
      have hnd : (s.live ++ h :: t).Nodup := by rw [← hfree]; exact hs
      have hperm : (s.live ++ h :: t).Perm (h :: (s.live ++ t)) :=
        List.perm_middle
      show ((h :: s.live) ++ t).Nodup
      exact hperm.nodup_iff.mp hnd
  | free h =>
    unfold PoolInv applyOp
    by_cases hmem : h ∈ s.live
    · simp only [if_pos hmem]
      have h1 : s.live.Perm (h :: s.live.erase h) := List.perm_cons_erase hmem
      have h2 : (s.live ++ s.free).Perm (h :: (s.live.erase h ++ s.free)) :=
        h1.append_right s.free
      have h3 : (h :: (s.live.erase h ++ s.free)).Nodup := h2.nodup_iff.mp hs
      have h4 : (s.live.erase h ++ h :: s.free).Perm
          (h :: (s.live.erase h ++ s.free)) := List.perm_middle
      exact h4.nodup_iff.mpr h3
    · simp only [if_neg hmem]; exact hs

lemma runPool_inv {n : Nat} (ops : List (PoolOp n)) (s : PoolState n)
    (hs : PoolInv s) : PoolInv (runPool s ops) := by
  induction ops generalizing s with
  | nil => exact hs
  | cons op ops ih => exact ih (applyOp s op) (applyOp_inv s op hs)

/-- C3. For every sequence of allocate/free operations on a
fixed-capacity pool, the live handles never contain the same slot
twice (no two live handles alias one slot), and freeing a live handle
grows the free set by exactly one slot. -/
theorem pool_alloc_free_spec (n : Nat) (ops : List (PoolOp n)) :
    ((runPool (initPool n) ops).live).Nodup ∧
    (∀ h : Fin n, h ∈ (runPool (initPool n) ops).live →
      ((applyOp (runPool (initPool n) ops) (.free h)).free).length =
        ((runPool (initPool n) ops).free).length + 1) := by
  have hinv : PoolInv (runPool (initPool n) ops) :=
    runPool_inv ops (initPool n) (initPool_inv n)
  constructor
  · exact (List.nodup_append.mp hinv).1
  · intro h hmem
    unfold applyOp
    simp only [if_pos hmem, List.length_cons]

/-- Witness for C3 at a concrete pool and operation sequence. -/
theorem pool_alloc_free_spec_witness :
    ((runPool (initPool 3) [.alloc, .alloc, .free 0, .alloc]).live).Nodup ∧
    (0 : Fin 3) ∈ (runPool (initPool 3) [.alloc, .alloc, .free 0, .alloc]).live ∧
    ((applyOp (runPool (initPool 3) [.alloc, .alloc, .free 0, .alloc])
        (.free 0)).free).length =
      ((runPool (initPool 3) [.alloc, .alloc, .free 0, .alloc]).free).length + 1 := by
  refine ⟨(pool_alloc_free_spec 3 _).1, by decide, ?_⟩
  exact (pool_alloc_free_spec 3 [.alloc, .alloc, .free 0, .alloc]).2 0 (by decide)

/-! ## Transfer chains (C2)

A `Transfer_t` (src/USBHost.h lines 111-130) holds an EHCI qTD plus
followup links and callback metadata.  Per the comment at lines 122-125,
when a group of Transfer_t is created the callback fields (pipe, buffer,
length) and the interrupt-on-complete bit of the qTD token are only set
in the last Transfer_t of the list.  We model each element by exactly
those observables: the IOC bit and the three callback fields (an unset
field is `none`). -/

structure Transfer_t where
  ioc : Bool
  pipe : Option Nat
  buffer : Option Nat
  length : Option Nat
deriving DecidableEq, Repr

/-- Modelled from the spec: the chain-construction loop inside
`USBHost::new_Transfer` (declared at src/USBHost.h line 142, body not
among the available sources).  The buffer of `len` remaining bytes is
split into qTD-sized pieces of at most `M` bytes (M is the
hardware-defined per-qTD maximum); while more than one qTD is needed an
intermediate Transfer with no callback metadata and no IOC bit is
emitted, and the final Transfer carries the IOC bit and the callback
metadata (pipe, buffer pointer, total length). -/
def transferChain (p b total M len : Nat) : List Transfer_t :=
  if _h : len ≤ M ∨ M = 0 then
    [{ ioc := true, pipe := some p, buffer := some b, length := some total }]
  else
    { ioc := false, pipe := none, buffer := none, length := none } ::
      transferChain p b total M (len - M)
termination_by len
decreasing_by omega

/-- The Transfer chain built for one logical I/O of `len` bytes. -/
def new_Transfer_chain (p b M len : Nat) : List Transfer_t :=
  transferChain p b len M len

lemma transferChain_ne_nil (p b total M len : Nat) :
    transferChain p b total M len ≠ [] := by
  unfold transferChain
  split <;> simp

lemma transferChain_length (p b total M : Nat) (hM : 0 < M) :
    ∀ len, 0 < len → (transferChain p b total M len).length = (len + M - 1) / M := by
  intro len
  induction len using Nat.strong_induction_on with
  | _ len ih =>
    intro hlen
    rw [transferChain]
    by_cases hc : len ≤ M ∨ M = 0
    · rw [dif_pos hc]
      have h1 : 1 * M ≤ len + M - 1 := by omega
      have h2 : len + M - 1 < (1 + 1) * M := by omega
      simp only [List.length_singleton]
      exact (Nat.div_eq_of_lt_le h1 h2).symm
    · rw [dif_neg hc]
      have hlt : M < len := by omega
      have hrec : (transferChain p b total M (len - M)).length =
          (len - M + M - 1) / M := ih (len - M) (by omega) (by omega)
      simp only [List.length_cons, hrec]
      have e1 : len - M + M - 1 = len - 1 := by omega
      have e2 : len + M - 1 = (len - 1) + M := by omega
      rw [e1, e2, Nat.add_div_right _ hM]

lemma transferChain_dropLast (p b total M : Nat) :
    ∀ len, ∀ t ∈ (transferChain p b total M len).dropLast,
      t.ioc = false ∧ t.pipe = none ∧ t.buffer = none ∧ t.length = none := by
  intro len
  induction len using Nat.strong_induction_on with
  | _ len ih =>
    intro t ht
    rw [transferChain] at ht
    by_cases hc : len ≤ M ∨ M = 0
    · rw [dif_pos hc] at ht
      simp at ht
    · rw [dif_neg hc] at ht
      rw [List.dropLast_cons_of_ne_nil (transferChain_ne_nil p b total M (len - M))]
        at ht
      rcases List.mem_cons.mp ht with hhd | htl
      · subst hhd; exact ⟨rfl, rfl, rfl, rfl⟩
      · exact ih (len - M) (by omega) t htl

lemma getLast_of_cons {α : Type} (a : α) (l : List α) (h : l ≠ []) :
    (a :: l).getLast? = l.getLast? := by
  cases l with
  | nil => exact absurd rfl h
  | cons b t => exact List.getLast?_cons_cons

lemma transferChain_getLast (p b total M : Nat) :
    ∀ len, (transferChain p b total M len).getLast? =
      some { ioc := true, pipe := some p, buffer := some b, length := some total } := by
  intro len
  induction len using Nat.strong_induction_on with
  | _ len ih =>
    rw [transferChain]
    by_cases hc : len ≤ M ∨ M = 0
    · rw [dif_pos hc]; rfl
    · rw [dif_neg hc]
      rw [getLast_of_cons _ _ (transferChain_ne_nil p b total M (len - M))]
      exact ih (len - M) (by omega)

/-- C2. For a buffer of length L with 0 < L and per-qTD hardware maximum
M with 0 < M, the constructed Transfer chain has exactly ceil(L/M)
elements; every Transfer before the last carries neither the callback
metadata nor the interrupt-on-complete bit, and the last carries the IOC
bit and the callback metadata (pipe, buffer, total length L). -/
theorem new_Transfer_chain_spec (p b M L : Nat) (hM : 0 < M) (hL : 0 < L) :
    (new_Transfer_chain p b M L).length = (L + M - 1) / M ∧
    (∀ t ∈ (new_Transfer_chain p b M L).dropLast,
      t.ioc = false ∧ t.pipe = none ∧ t.buffer = none ∧ t.length = none) ∧
    (new_Transfer_chain p b M L).getLast? =
      some { ioc := true, pipe := some p, buffer := some b, length := some L } :=
  ⟨transferChain_length p b L M hM L hL,
   transferChain_dropLast p b L M L,
   transferChain_getLast p b L M L⟩

/-- Witness for C2: a 1000-byte transfer split by a 400-byte qTD bound
gives a 3-element chain with metadata only on the last element. -/
theorem new_Transfer_chain_spec_witness :
    (0 : Nat) < 400 ∧ (0 : Nat) < 1000 ∧
    ((new_Transfer_chain 7 9 400 1000).length = (1000 + 400 - 1) / 400 ∧
     (∀ t ∈ (new_Transfer_chain 7 9 400 1000).dropLast,
       t.ioc = false ∧ t.pipe = none ∧ t.buffer = none ∧ t.length = none) ∧
     (new_Transfer_chain 7 9 400 1000).getLast? =
       some { ioc := true, pipe := some 7, buffer := some 9, length := some 1000 }) :=
  ⟨by norm_num, by norm_num,
   new_Transfer_chain_spec 7 9 400 1000 (by norm_num) (by norm_num)⟩


/-! ## new_Transfer failure atomicity (C4)

Modelled from the spec: the body of `USBHost::new_Transfer`
(src/USBHost.h line 142) is not among the available sources.  Per the
spec it allocates one Transfer record per qTD of the chain from the
Transfer pool; when the pool cannot supply every record, any partially
allocated records are returned to the pool and `false` is reported,
with nothing linked into the hardware qTD schedule or the followup
list.  The state carries the Transfer pool free list, the followup
list and the pipe's hardware qTD schedule, each as lists of slot ids. -/

structure HostState where
  pool_free : List Nat
  followup : List Nat
  schedule : List Nat
deriving DecidableEq, Repr

/-- Take `k` slots from the front of the free list; `none` when the
pool cannot supply all `k` (the net effect of allocate-then-free-back
on failure: no slot stays taken). -/
def takeSlots : Nat → List Nat → Option (List Nat × List Nat)
  | 0, free => some ([], free)
  | _ + 1, [] => none
  | k + 1, t :: free =>
    match takeSlots k free with
    | none => none
    | some (ts, rest) => some (t :: ts, rest)

/-- Modelled from the spec: `USBHost::new_Transfer` on pipe `p` with
buffer `b` and length `len`, where `M` is the per-qTD hardware maximum.
It needs ceil(len/M) Transfer records; on success the chain is appended
to the followup list and to the pipe's qTD schedule, on pool exhaustion
it reports false and leaves the state as it was. -/
def new_Transfer (s : HostState) (_p _b len M : Nat) : Bool × HostState :=
  match takeSlots ((len + M - 1) / M) s.pool_free with
  | none => (false, s)
  | some (ts, rest) =>
    (true, { pool_free := rest, followup := s.followup ++ ts,
             schedule := s.schedule ++ ts })

lemma takeSlots_none_iff (k : Nat) :
    ∀ free : List Nat, takeSlots k free = none ↔ free.length < k := by
  induction k with
  | zero => intro free; simp [takeSlots]
  | succ k ih =>
    intro free
    cases free with
    | nil => simp [takeSlots]
    | cons t rest =>
      simp only [takeSlots, List.length_cons]
      cases hrec : takeSlots k rest with
      | none =>
        have hlt := (ih rest).mp hrec
        simp only [hrec]
        exact iff_of_true (by trivial) (by omega)
      | some pr =>
        obtain ⟨ts2, rest2⟩ := pr
        have hlen : ¬ rest.length < k := fun hlt =>
          Option.noConfusion (((ih rest).mpr hlt).symm.trans hrec)
        simp only [hrec]
        exact iff_of_false (fun hc => Option.noConfusion hc) (by omega)

/-- C4. `new_Transfer` fails (returns false) exactly when the Transfer
pool cannot supply every record of the chain, i.e. when fewer than
ceil(len/M) slots are free; in that case the followup list, the pipe's
qTD schedule and even the pool itself are left unchanged (all-or-nothing
construction), and the number of records needed is exactly the length of
the Transfer chain of C2. -/
theorem new_Transfer_failure_spec (s : HostState) (p b len M : Nat)
    (hM : 0 < M) (hL : 0 < len) :
    ((new_Transfer s p b len M).1 = false ↔
      s.pool_free.length < (len + M - 1) / M) ∧
    ((new_Transfer s p b len M).1 = false →
      (new_Transfer s p b len M).2 = s) ∧
    (len + M - 1) / M = (new_Transfer_chain p b M len).length := by
  refine ⟨?_, ?_, (transferChain_length p b len M hM len hL).symm⟩
  · cases hts : takeSlots ((len + M - 1) / M) s.pool_free with
    | none =>
      simp only [new_Transfer, hts]
      exact iff_of_true (by trivial) ((takeSlots_none_iff _ s.pool_free).mp hts)
    | some pr =>
      obtain ⟨ts, rest⟩ := pr
      simp only [new_Transfer, hts]
      refine iff_of_false (fun hc => Bool.noConfusion hc) (fun hlt => ?_)
      exact Option.noConfusion
        (((takeSlots_none_iff _ s.pool_free).mpr hlt).symm.trans hts)
  · cases hts : takeSlots ((len + M - 1) / M) s.pool_free with
    | none =>
      simp only [new_Transfer, hts]
      intro _; trivial
    | some pr =>
      obtain ⟨ts, rest⟩ := pr
      simp only [new_Transfer, hts]
      intro hc; exact Bool.noConfusion hc

/-- Witness for C4: a pool with two free slots cannot supply a
three-qTD chain; the attempt reports false and changes nothing. -/
theorem new_Transfer_failure_spec_witness :
    (0 : Nat) < 400 ∧ (0 : Nat) < 1000 ∧
    (let s : HostState :=
      { pool_free := [4, 5], followup := [1], schedule := [2] }
     ((new_Transfer s 7 9 1000 400).1 = false ↔
       s.pool_free.length < (1000 + 400 - 1) / 400) ∧
     ((new_Transfer s 7 9 1000 400).1 = false →
       (new_Transfer s 7 9 1000 400).2 = s) ∧
     (1000 + 400 - 1) / 400 = (new_Transfer_chain 7 9 400 1000).length) :=
  ⟨by norm_num, by norm_num,
   new_Transfer_failure_spec
     { pool_free := [4, 5], followup := [1], schedule := [2] }
     7 9 1000 400 (by norm_num) (by norm_num)⟩

/-! ## Interrupt dispatcher and followup list (C5, C6)

Modelled from the spec: the body of `USBHost::isr` (declared at
src/USBHost.h line 147) is not among the available sources.  Per spec
section 4.4 the dispatcher walks the followup list from oldest to
newest; a chain whose hardware active bit is clear is retired: it is
removed from the followup list, the owning pipe's callback is invoked
exactly once for the whole chain with the final Transfer's metadata
(also on error: halted / transaction error / babble), and all the
chain's Transfer records are returned to the pool.  The dispatcher
never re-issues a transfer.

A `ChainRec` stands for one whole Transfer chain (one logical I/O) on
the followup list: its owning pipe, its per-pipe submission index, the
number of Transfer records in the chain, whether the hardware has
retired it (active bit clear on its final qTD), and whether it retired
with an error status. -/

structure ChainRec where
  pipe : Nat
  seq : Nat
  size : Nat
  retired : Bool
  halted : Bool
deriving DecidableEq, Repr

/-- Callback invocation record: owning pipe, submission index and the
error flag passed to the pipe's callback. -/
def chainEvent (c : ChainRec) : Nat × Nat × Bool := (c.pipe, c.seq, c.halted)

structure DispatchState where
  followup : List ChainRec
  freed : Nat
  trace : List (Nat × Nat × Bool)
deriving DecidableEq, Repr

/-- Modelled from the spec: one invocation of `USBHost::isr`.  Walking
the followup list oldest-to-newest, every retired chain is removed,
produces exactly one callback carrying the final Transfer's metadata
(error or not), and its Transfer records are all returned to the pool
(counted by `freed`); non-retired chains stay, in order. -/
def isr (s : DispatchState) : DispatchState :=
  { followup := s.followup.filter (fun c => !c.retired),
    freed := s.freed +
      ((s.followup.filter (fun c => c.retired)).map (fun c => c.size)).sum,
    trace := s.trace ++ (s.followup.filter (fun c => c.retired)).map chainEvent }

/-- Hardware progress on pipe `p`: the EHCI controller executes the
qTDs of one queue head strictly in order, so the chain that completes
next on a pipe is the oldest not-yet-retired chain of that pipe; its
active bit clears, with `e` recording an error outcome. -/
def hwRetire (p : Nat) (e : Bool) : List ChainRec → List ChainRec
  | [] => []
  | c :: rest =>
    if c.pipe = p ∧ c.retired = false then
      { c with retired := true, halted := e } :: rest
    else c :: hwRetire p e rest

inductive HostEvent where
  | retire (p : Nat) (e : Bool)
  | interrupt

/-- A run of the system: hardware retirement events interleaved with
isr invocations in any way (interrupt coalescing lets any number of
retirements precede one isr). -/
def runDispatch (s : DispatchState) : List HostEvent → DispatchState
  | [] => s
  | .retire p e :: evs =>
    runDispatch { s with followup := hwRetire p e s.followup } evs
  | .interrupt :: evs => runDispatch (isr s) evs

/-- The chains of pipe `p` on a followup list, oldest first. -/
def pChains (p : Nat) (fl : List ChainRec) : List ChainRec :=
  fl.filter (fun c => c.pipe == p)

/-- Submission indices of pipe `p`'s chains still on the followup list. -/
def seqsOf (p : Nat) (fl : List ChainRec) : List Nat :=
  (pChains p fl).map (fun c => c.seq)

/-- Submission indices of the callbacks already delivered to pipe `p`. -/
def traceSeqs (p : Nat) (tr : List (Nat × Nat × Bool)) : List Nat :=
  (tr.filter (fun ev => ev.1 == p)).map (fun ev => ev.2.1)

/-- Retired flags of pipe `p`'s chains, oldest first. -/
def retFlags (p : Nat) (fl : List ChainRec) : List Bool :=
  (pChains p fl).map (fun c => c.retired)

/-- A true-block followed by a false-block: the retired chains of a
pipe always form a prefix of its submission order. -/
def trueThenFalse : List Bool → Bool
  | [] => true
  | true :: rest => trueThenFalse rest
  | false :: rest => rest.all (fun x => x == false)

/-- Retiring the oldest active chain flips the first false flag. -/
def flipFirstFalse : List Bool → List Bool
  | [] => []
  | true :: r => true :: flipFirstFalse r
  | false :: r => true :: r

lemma allFalse_trueThenFalse (r : List Bool) (h : r.all (fun x => x == false) = true) :
    trueThenFalse r = true := by
  cases r with
  | nil => rfl
  | cons b rest =>
    have hb : b = false := by
      have := (List.all_eq_true.mp h) b (List.mem_cons_self b rest)
      simpa using this
    subst hb
    show rest.all (fun x => x == false) = true
    exact List.all_eq_true.mpr fun x hx =>
      (List.all_eq_true.mp h) x (List.mem_cons_of_mem _ hx)

lemma flipFirstFalse_keeps (l : List Bool) (h : trueThenFalse l = true) :
    trueThenFalse (flipFirstFalse l) = true := by
  induction l with
  | nil => rfl
  | cons b rest ih =>
    cases b with
    | true => exact ih h
    | false =>
      show trueThenFalse (true :: rest) = true
      exact allFalse_trueThenFalse rest h

lemma pChains_cons (p : Nat) (c : ChainRec) (rest : List ChainRec) :
    pChains p (c :: rest) =
      if c.pipe == p then c :: pChains p rest else pChains p rest := by
  simp [pChains, List.filter_cons]

lemma pChains_hwRetire_other (p q : Nat) (e : Bool) (hpq : q ≠ p) :
    ∀ fl, pChains p (hwRetire q e fl) = pChains p fl := by
  intro fl
  induction fl with
  | nil => rfl
  | cons c rest ih =>
    by_cases hc : c.pipe = q ∧ c.retired = false
    · simp only [hwRetire, if_pos hc]
      simp [pChains_cons, hc.1, hpq]
    · simp only [hwRetire, if_neg hc, pChains_cons, ih]

lemma seqsOf_hwRetire (p q : Nat) (e : Bool) :
    ∀ fl, seqsOf p (hwRetire q e fl) = seqsOf p fl := by
  intro fl
  induction fl with
  | nil => rfl
  | cons c rest ih =>
    by_cases hc : c.pipe = q ∧ c.retired = false
    · simp only [hwRetire, if_pos hc, seqsOf, pChains_cons]
      split <;> simp
    · have ih2 : (pChains p (hwRetire q e rest)).map (fun c => c.seq) =
          (pChains p rest).map (fun c => c.seq) := ih
      simp only [hwRetire, if_neg hc, seqsOf, pChains_cons]
      split <;> simp [ih2]

lemma retFlags_hwRetire_same (p : Nat) (e : Bool) :
    ∀ fl, retFlags p (hwRetire p e fl) = flipFirstFalse (retFlags p fl) := by
  intro fl
  induction fl with
  | nil => rfl
  | cons c rest ih =>
    by_cases hc : c.pipe = p ∧ c.retired = false
    · have hcp : (c.pipe == p) = true := by simp [hc.1]
      simp only [hwRetire, if_pos hc]
      simp only [retFlags, pChains_cons, hcp, if_true, List.map_cons, hc.2]
      rfl
    · have ih2 : (pChains p (hwRetire p e rest)).map (fun c => c.retired) =
          flipFirstFalse ((pChains p rest).map (fun c => c.retired)) := ih
      cases hcp : (c.pipe == p) with
      | true =>
        have hcpe : c.pipe = p := by simpa using hcp
        have hcr : c.retired = true := by
          cases hr : c.retired with
          | false => exact absurd ⟨hcpe, hr⟩ hc
          | true => rfl
        simp only [hwRetire, if_neg hc]
        simp only [retFlags, pChains_cons, hcp, if_true, List.map_cons, hcr, ih2]
        rfl
      | false =>
        simp only [hwRetire, if_neg hc]
        simp [retFlags, pChains_cons, hcp, ih2]

lemma retFlags_hwRetire_other (p q : Nat) (e : Bool) (hpq : q ≠ p)
    (fl : List ChainRec) :
    retFlags p (hwRetire q e fl) = retFlags p fl := by
  simp only [retFlags, pChains_hwRetire_other p q e hpq fl]

lemma filter_swap {α : Type} (f g : α → Bool) (l : List α) :
    (l.filter f).filter g = (l.filter g).filter f := by
  induction l with
  | nil => rfl
  | cons a t ih =>
    cases hf : f a <;> cases hg : g a <;>
      simp [List.filter_cons, hf, hg, ih]

lemma map_filter_comm {α β : Type} (f : α → β) (q : β → Bool) (l : List α) :
    (l.map f).filter q = (l.filter (fun a => q (f a))).map f := by
  induction l with
  | nil => rfl
  | cons a t ih =>
    cases hq : q (f a) <;> simp [List.filter_cons, hq, ih]

lemma pChains_filter (p : Nat) (g : ChainRec → Bool) (fl : List ChainRec) :
    pChains p (fl.filter g) = (pChains p fl).filter g :=
  filter_swap g (fun c => c.pipe == p) fl

lemma filter_retired_of_allFalse (l : List ChainRec)
    (h : (l.map (fun c => c.retired)).all (fun x => x == false) = true) :
    l.filter (fun c => c.retired) = [] := by
  induction l with
  | nil => rfl
  | cons c rest ih =>
    simp only [List.map_cons, List.all_cons] at h
    have hc : c.retired = false := by
      rcases Bool.and_eq_true_iff.mp h with ⟨h1, _⟩
      simpa using h1
    have hrest := (Bool.and_eq_true_iff.mp h).2
    simp [List.filter_cons, hc, ih hrest]

lemma filter_active_of_allFalse (l : List ChainRec)
    (h : (l.map (fun c => c.retired)).all (fun x => x == false) = true) :
    l.filter (fun c => !c.retired) = l := by
  induction l with
  | nil => rfl
  | cons c rest ih =>
    simp only [List.map_cons, List.all_cons] at h
    have hc : c.retired = false := by
      rcases Bool.and_eq_true_iff.mp h with ⟨h1, _⟩
      simpa using h1
    have hrest := (Bool.and_eq_true_iff.mp h).2
    simp [List.filter_cons, hc, ih hrest]

lemma retired_split (l : List ChainRec)
    (h : trueThenFalse (l.map (fun c => c.retired)) = true) :
    l.filter (fun c => c.retired) ++ l.filter (fun c => !c.retired) = l := by
  induction l with
  | nil => rfl
  | cons c rest ih =>
    cases hc : c.retired with
    | true =>
      have hrest : trueThenFalse (rest.map (fun c => c.retired)) = true := by
        simpa [hc] using h
      simp [List.filter_cons, hc, ih hrest]
    | false =>
      have hrest : (rest.map (fun c => c.retired)).all (fun x => x == false) = true := by
        simpa [hc, trueThenFalse] using h
      simp [List.filter_cons, hc, filter_retired_of_allFalse rest hrest,
        filter_active_of_allFalse rest hrest]

lemma notRetired_flags (l : List ChainRec) :
    ((l.filter (fun c => !c.retired)).map (fun c => c.retired)).all
      (fun x => x == false) = true := by
  induction l with
  | nil => rfl
  | cons c rest ih =>
    cases hc : c.retired <;> simp [List.filter_cons, hc, ih]

lemma traceSeqs_append (p : Nat) (tr1 tr2 : List (Nat × Nat × Bool)) :
    traceSeqs p (tr1 ++ tr2) = traceSeqs p tr1 ++ traceSeqs p tr2 := by
  simp [traceSeqs, List.filter_append]

lemma traceSeqs_emitted (p : Nat) (fl : List ChainRec) :
    traceSeqs p ((fl.filter (fun c => c.retired)).map chainEvent) =
      seqsOf p (fl.filter (fun c => c.retired)) := by
  simp only [traceSeqs, map_filter_comm, List.map_map, seqsOf, pChains]
  simp [chainEvent, Function.comp]

/-- Dispatcher invariant at pipe `p` for `N` submitted chains: the
callbacks already delivered followed by the submission indices still on
the followup list are exactly the submission order 0..N-1, and the
retired flags of that pipe's chains form a prefix of its queue. -/
def DInv (p N : Nat) (s : DispatchState) : Prop :=
  traceSeqs p s.trace ++ seqsOf p s.followup = List.range N ∧
  trueThenFalse (retFlags p s.followup) = true

lemma DInv_retire (p N q : Nat) (e : Bool) (s : DispatchState)
    (h : DInv p N s) :
    DInv p N { s with followup := hwRetire q e s.followup } := by
  constructor
  · show traceSeqs p s.trace ++ seqsOf p (hwRetire q e s.followup) = _
    rw [seqsOf_hwRetire]
    exact h.1
  · show trueThenFalse (retFlags p (hwRetire q e s.followup)) = true
    by_cases hq : q = p
    · subst hq
      rw [retFlags_hwRetire_same]
      exact flipFirstFalse_keeps _ h.2
    · rw [retFlags_hwRetire_other p q e hq]
      exact h.2

lemma DInv_isr (p N : Nat) (s : DispatchState) (h : DInv p N s) :
    DInv p N (isr s) := by
  have hsplit : seqsOf p (s.followup.filter (fun c => c.retired)) ++
      seqsOf p (s.followup.filter (fun c => !c.retired)) =
      seqsOf p s.followup := by
    simp only [seqsOf, pChains_filter, ← List.map_append]
    congr 1
    exact retired_split (pChains p s.followup) h.2
  constructor
  · show traceSeqs p (s.trace ++ _) ++
        seqsOf p (s.followup.filter (fun c => !c.retired)) = _
    rw [traceSeqs_append, traceSeqs_emitted, List.append_assoc, hsplit]
    exact h.1
  · show trueThenFalse
        (retFlags p (s.followup.filter (fun c => !c.retired))) = true
    apply allFalse_trueThenFalse
    show ((pChains p (s.followup.filter (fun c => !c.retired))).map
      (fun c => c.retired)).all (fun x => x == false) = true
    rw [pChains_filter]
    exact notRetired_flags (pChains p s.followup)

lemma DInv_run (p N : Nat) (evs : List HostEvent) :
    ∀ s, DInv p N s → DInv p N (runDispatch s evs) := by
  induction evs with
  | nil => intro s h; exact h
  | cons ev evs ih =>
    intro s h
    cases ev with
    | retire q e => exact ih _ (DInv_retire p N q e s h)
    | interrupt => exact ih _ (DInv_isr p N s h)

/-- C5. For a pipe `p` whose chains sit on the followup list in
submission order T0..T(N-1), all still active, under any interleaving
of hardware retirements (in-order per pipe, as EHCI executes one queue
head's qTDs sequentially) and isr invocations — i.e. regardless of how
interrupts coalesce — the callbacks delivered to pipe `p` are always
an initial segment of the submission order: T0, T1, ... in exactly
submission order, never reordered or skipped. -/
theorem isr_fifo_per_pipe (p N : Nat) (s0 : DispatchState)
    (hseqs : seqsOf p s0.followup = List.range N)
    (hflags : trueThenFalse (retFlags p s0.followup) = true)
    (htrace : traceSeqs p s0.trace = []) :
    ∀ evs : List HostEvent, ∃ k,
      traceSeqs p (runDispatch s0 evs).trace = (List.range N).take k := by
  intro evs
  have hinv0 : DInv p N s0 := by
    constructor
    · rw [htrace, hseqs]; rfl
    · exact hflags
  have hinv := DInv_run p N evs s0 hinv0
  refine ⟨(traceSeqs p (runDispatch s0 evs).trace).length, ?_⟩
  rw [← hinv.1, List.take_left]

/-- Witness for C5: two chains on pipe 1 and one on pipe 2; the second
pipe-1 chain and the pipe-2 chain retire first, then an interrupt
fires, then the first pipe-1 chain retires and another interrupt
fires.  Pipe 1's callbacks still come out in submission order. -/
theorem isr_fifo_per_pipe_witness :
    (seqsOf 1 [⟨1, 0, 1, false, false⟩, ⟨2, 0, 1, false, false⟩,
        ⟨1, 1, 1, false, false⟩] = List.range 2) ∧
    (trueThenFalse (retFlags 1 [⟨1, 0, 1, false, false⟩,
        ⟨2, 0, 1, false, false⟩, ⟨1, 1, 1, false, false⟩]) = true) ∧
    (traceSeqs 1 ([] : List (Nat × Nat × Bool)) = []) ∧
    ∃ k, traceSeqs 1 (runDispatch
        { followup := [⟨1, 0, 1, false, false⟩, ⟨2, 0, 1, false, false⟩,
            ⟨1, 1, 1, false, false⟩], freed := 0, trace := [] }
        [.retire 2 false, .interrupt, .retire 1 false, .retire 1 false,
          .interrupt]).trace = (List.range 2).take k := by
  refine ⟨by decide, by decide, by decide, ?_⟩
  exact isr_fifo_per_pipe 1 2
    { followup := [⟨1, 0, 1, false, false⟩, ⟨2, 0, 1, false, false⟩,
        ⟨1, 1, 1, false, false⟩], freed := 0, trace := [] }
    (by decide) (by decide) (by decide)
    [.retire 2 false, .interrupt, .retire 1 false, .retire 1 false, .interrupt]

lemma countP_key_nodup (c : ChainRec) :
    ∀ l : List ChainRec,
      (l.map (fun d => (d.pipe, d.seq))).Nodup → c ∈ l →
      l.countP (fun d => d.pipe == c.pipe && d.seq == c.seq) = 1 := by
  intro l
  induction l with
  | nil => intro _ hmem; exact absurd hmem (List.not_mem_nil c)
  | cons d rest ih =>
    intro hnd hmem
    have hnd2 : (rest.map (fun d => (d.pipe, d.seq))).Nodup :=
      (List.nodup_cons.mp hnd).2
    have hhd : (d.pipe, d.seq) ∉ rest.map (fun x => (x.pipe, x.seq)) :=
      (List.nodup_cons.mp hnd).1
    rcases List.mem_cons.mp hmem with hcd | hcrest
    · subst hcd
      rw [List.countP_cons]
      have hpred : (c.pipe == c.pipe && c.seq == c.seq) = true := by simp
      rw [hpred]
      have hzero : rest.countP
          (fun x => x.pipe == c.pipe && x.seq == c.seq) = 0 := by
        apply List.countP_eq_zero.mpr
        intro x hx hpx
        have hkey : (x.pipe, x.seq) = (c.pipe, c.seq) := by
          rcases Bool.and_eq_true_iff.mp hpx with ⟨h1, h2⟩
          have e1 : x.pipe = c.pipe := by simpa using h1
          have e2 : x.seq = c.seq := by simpa using h2
          rw [e1, e2]
        apply hhd
        rw [← hkey]
        exact List.mem_map_of_mem (fun x => (x.pipe, x.seq)) hx
      rw [hzero]
      simp
    · have hdc : (d.pipe == c.pipe && d.seq == c.seq) = false := by
        cases hp : (d.pipe == c.pipe && d.seq == c.seq) with
        | false => rfl
        | true =>
          exfalso
          rcases Bool.and_eq_true_iff.mp hp with ⟨h1, h2⟩
          have e1 : d.pipe = c.pipe := by simpa using h1
          have e2 : d.seq = c.seq := by simpa using h2
          apply hhd
          rw [e1, e2]
          exact List.mem_map_of_mem (fun x => (x.pipe, x.seq)) hcrest
      rw [List.countP_cons, hdc]
      simp only [Bool.false_eq_true, if_false, Nat.add_zero]
      exact ih hnd2 hcrest

/-- C6. For every chain the hardware has retired — error status
(halted) or not — one invocation of the dispatcher removes it from the
followup list, delivers exactly one callback for the whole chain
carrying the final Transfer's metadata (not one callback per qTD: the
number of new callbacks equals the number of retired chains, however
many qTDs each contains), returns all the chain's Transfer records to
the pool, and never re-issues anything: the surviving followup list is
a sublist of the old one. -/
theorem isr_retirement_spec (s : DispatchState) (c : ChainRec)
    (hc : c ∈ s.followup) (hret : c.retired = true)
    (hkeys : (s.followup.map (fun d => (d.pipe, d.seq))).Nodup) :
    c ∉ (isr s).followup ∧
    ((isr s).trace.drop s.trace.length).countP
      (fun ev => ev.1 == c.pipe && ev.2.1 == c.seq) = 1 ∧
    ((isr s).trace.drop s.trace.length).length =
      (s.followup.filter (fun d => d.retired)).length ∧
    (isr s).freed = s.freed +
      ((s.followup.filter (fun d => d.retired)).map (fun d => d.size)).sum ∧
    (isr s).followup.Sublist s.followup := by
  have hdrop : (isr s).trace.drop s.trace.length =
      (s.followup.filter (fun d => d.retired)).map chainEvent := by
    show (s.trace ++ _).drop s.trace.length = _
    exact List.drop_left s.trace _
  have hmemf : c ∈ s.followup.filter (fun d => d.retired) :=
    List.mem_filter.mpr ⟨hc, hret⟩
  have hndf : ((s.followup.filter (fun d => d.retired)).map
      (fun d => (d.pipe, d.seq))).Nodup :=
    ((List.filter_sublist s.followup).map (fun d => (d.pipe, d.seq))).nodup hkeys
  refine ⟨?_, ?_, ?_, rfl, List.filter_sublist s.followup⟩
  · intro hmem
    have := (List.mem_filter.mp hmem).2
    rw [hret] at this
    exact Bool.noConfusion this
  · rw [hdrop, List.countP_map]
    have hsame : ∀ d, ((fun ev : Nat × Nat × Bool =>
          ev.1 == c.pipe && ev.2.1 == c.seq) ∘ chainEvent) d =
        (fun d : ChainRec => d.pipe == c.pipe && d.seq == c.seq) d := by
      intro d; rfl
    rw [List.countP_congr (fun d _ => by rw [hsame d])]
    exact countP_key_nodup c _ hndf hmemf
  · rw [hdrop, List.length_map]

/-- Witness for C6: two chains on the followup list, both retired, one
with an error status; a three-qTD error chain yields one callback and
three records freed. -/
theorem isr_retirement_spec_witness :
    (⟨1, 0, 3, true, true⟩ : ChainRec) ∈
      [(⟨1, 0, 3, true, true⟩ : ChainRec), ⟨2, 0, 1, true, false⟩] ∧
    (⟨1, 0, 3, true, true⟩ : ChainRec).retired = true ∧
    (([(⟨1, 0, 3, true, true⟩ : ChainRec), ⟨2, 0, 1, true, false⟩]).map
      (fun d => (d.pipe, d.seq))).Nodup ∧
    (let s : DispatchState :=
      { followup := [⟨1, 0, 3, true, true⟩, ⟨2, 0, 1, true, false⟩],
        freed := 0, trace := [] }
     (⟨1, 0, 3, true, true⟩ : ChainRec) ∉ (isr s).followup ∧
     ((isr s).trace.drop s.trace.length).countP
       (fun ev => ev.1 == 1 && ev.2.1 == 0) = 1 ∧
     ((isr s).trace.drop s.trace.length).length =
       (s.followup.filter (fun d => d.retired)).length ∧
     (isr s).freed = s.freed +
       ((s.followup.filter (fun d => d.retired)).map (fun d => d.size)).sum ∧
     (isr s).followup.Sublist s.followup) := by
  refine ⟨by decide, rfl, by decide, ?_⟩
  exact isr_retirement_spec
    { followup := [⟨1, 0, 3, true, true⟩, ⟨2, 0, 1, true, false⟩],
      freed := 0, trace := [] }
    ⟨1, 0, 3, true, true⟩ (by decide) rfl (by decide)

/-! ## Driver registry and claim protocol (C7, C10)

The default (base-class) capability implementations are embedded from
src/USBHost.h lines 189-198: `USBHostDriver::claim` returns false and
`USBHostDriver::control` returns false.  The registry walk itself,
`USBHost::claim_drivers` (declared at line 148), has no body among the
available sources and is modelled from spec section 4.6: offer the
device to each unbound driver in registration order, first at device
scope, then — only if unclaimed at device scope — at interface/IAD
scope for each interface grouping; the first driver whose claim returns
true moves from the available list to the device's bound list. -/

/-- Embedding of the base-class `USBHostDriver::claim`
(src/USBHost.h lines 189-191): always returns false. -/
def USBHostDriver.claim (_device _scope : Nat) (_descriptors : List Nat) : Bool :=
  false

/-- Embedding of the base-class `USBHostDriver::control`
(src/USBHost.h lines 196-198): always returns false. -/
def USBHostDriver.control (_transfer : Nat) : Bool :=
  false

/-- A registered driver: identity plus its claim capability, taking the
device id, the scope (0 device level, 1 interface level, 2 IAD) and the
descriptor bytes offered. -/
structure DriverRec where
  id : Nat
  claimFn : Nat → Nat → List Nat → Bool

/-- Offer one descriptor to each available driver in registration
order; the first driver whose claim returns true is removed from the
available list and returned, every other driver keeps its place. -/
def offerOne (dev scope : Nat) (descr : List Nat) :
    List DriverRec → Option (DriverRec × List DriverRec)
  | [] => none
  | d :: rest =>
    if d.claimFn dev scope descr then some (d, rest)
    else
      match offerOne dev scope descr rest with
      | none => none
      | some (b, rest2) => some (b, d :: rest2)

/-- Interface/IAD pass: offer each interface grouping (scope tag and
descriptor bytes) in configuration order to the drivers still
available; claimed drivers accumulate on the bound list. -/
def claimIfaces (dev : Nat) :
    List DriverRec → List (Nat × List Nat) → List DriverRec × List DriverRec
  | avail, [] => ([], avail)
  | avail, g :: rest =>
    match offerOne dev g.1 g.2 avail with
    | none => claimIfaces dev avail rest
    | some (d, remaining) =>
      let pr := claimIfaces dev remaining rest
      (d :: pr.1, pr.2)

/-- Modelled from the spec: `USBHost::claim_drivers` — device scope
first; interface groupings only when no driver claimed the whole
device.  Returns (drivers bound to this device, drivers still
available). -/
def claim_drivers (dev : Nat) (avail : List DriverRec) (devDescr : List Nat)
    (groupings : List (Nat × List Nat)) : List DriverRec × List DriverRec :=
  match offerOne dev 0 devDescr avail with
  | some pr => ([pr.1], pr.2)
  | none => claimIfaces dev avail groupings

lemma offerOne_all_false (dev scope : Nat) (descr : List Nat) :
    ∀ avail : List DriverRec,
      (∀ d ∈ avail, d.claimFn dev scope descr = false) →
      offerOne dev scope descr avail = none := by
  intro avail
  induction avail with
  | nil => intro _; rfl
  | cons d rest ih =>
    intro hall
    have hd : d.claimFn dev scope descr = false :=
      hall d (List.mem_cons_self d rest)
    have hrest := ih fun x hx => hall x (List.mem_cons_of_mem d hx)
    simp [offerOne, hd, hrest]

lemma claimIfaces_all_false (dev : Nat) (avail : List DriverRec)
    (hall : ∀ d ∈ avail, ∀ scope descr, d.claimFn dev scope descr = false) :
    ∀ groupings, claimIfaces dev avail groupings = ([], avail) := by
  intro groupings
  induction groupings with
  | nil => rfl
  | cons g rest ih =>
    have hnone : offerOne dev g.1 g.2 avail = none :=
      offerOne_all_false dev g.1 g.2 avail fun d hd => hall d hd g.1 g.2
    simp [claimIfaces, hnone, ih]

/-- C7. For drivers registered in order A, B, C where A and C never
claim anything and B claims either at device scope or at some interface
grouping, the registry binds exactly B and leaves A and C on the
available list, in order, unaffected; the device-scope pass runs before
any interface-scope pass. -/
theorem claim_drivers_precedence (dev : Nat) (A B C : DriverRec)
    (devDescr : List Nat) (groupings : List (Nat × List Nat))
    (hA : ∀ d scope descr, A.claimFn d scope descr = false)
    (hC : ∀ d scope descr, C.claimFn d scope descr = false)
    (hB : B.claimFn dev 0 devDescr = true ∨
      (B.claimFn dev 0 devDescr = false ∧
        ∃ g ∈ groupings, B.claimFn dev g.1 g.2 = true)) :
    claim_drivers dev [A, B, C] devDescr groupings = ([B], [A, C]) := by
  rcases hB with hB1 | ⟨hB0, g0, hg0, hBg⟩
  · simp [claim_drivers, offerOne, hA, hB1]
  · have hnone : offerOne dev 0 devDescr [A, B, C] = none := by
      simp [offerOne, hA, hB0, hC]
    simp only [claim_drivers, hnone]
    clear hnone
    induction groupings with
    | nil => exact absurd hg0 (List.not_mem_nil g0)
    | cons g rest ih =>
      by_cases hBt : B.claimFn dev g.1 g.2 = true
      · have hoff : offerOne dev g.1 g.2 [A, B, C] = some (B, [A, C]) := by
          simp [offerOne, hA, hBt]
        have hrest : claimIfaces dev [A, C] rest = ([], [A, C]) :=
          claimIfaces_all_false dev [A, C]
            (by
              intro d hd scope descr
              rcases List.mem_cons.mp hd with h1 | h2
              · subst h1; exact hA dev scope descr
              · have : d = C := by simpa using h2
                subst this; exact hC dev scope descr)
            rest
        simp [claimIfaces, hoff, hrest]
      · have hnoneg : offerOne dev g.1 g.2 [A, B, C] = none := by
          have hBf : B.claimFn dev g.1 g.2 = false := by
            cases h : B.claimFn dev g.1 g.2 with
            | false => rfl
            | true => exact absurd h hBt
          simp [offerOne, hA, hBf, hC]
        have hg0rest : g0 ∈ rest := by
          rcases List.mem_cons.mp hg0 with h1 | h2
          · subst h1; exact absurd hBg hBt
          · exact h2
        simp only [claimIfaces, hnoneg]
        exact ih hg0rest

/-- Witness drivers for C7: A and C never claim, B claims at interface
scope only. -/
def drvA : DriverRec := { id := 0, claimFn := fun _ _ _ => false }

def drvB : DriverRec :=
  { id := 1, claimFn := fun _ scope _ => scope == 1 }

def drvC : DriverRec := { id := 2, claimFn := fun _ _ _ => false }

/-- Witness for C7 with B claiming the single interface grouping. -/
theorem claim_drivers_precedence_witness :
    ((∀ d scope descr, drvA.claimFn d scope descr = false) ∧
     (∀ d scope descr, drvC.claimFn d scope descr = false) ∧
     (drvB.claimFn 5 0 [1, 2] = false ∧
       ∃ g ∈ [((1 : Nat), [9, 9])], drvB.claimFn 5 g.1 g.2 = true)) ∧
    claim_drivers 5 [drvA, drvB, drvC] [1, 2] [(1, [9, 9])] =
      ([drvB], [drvA, drvC]) := by
  refine ⟨⟨fun _ _ _ => rfl, fun _ _ _ => rfl, rfl, ⟨(1, [9, 9]), by simp, rfl⟩⟩, ?_⟩
  exact claim_drivers_precedence 5 drvA drvB drvC [1, 2] [(1, [9, 9])]
    (fun _ _ _ => rfl) (fun _ _ _ => rfl)
    (Or.inr ⟨rfl, (1, [9, 9]), by simp, rfl⟩)

/-- A driver object that overrides neither capability: both claim and
control are the base-class implementations. -/
def defaultDriver (i : Nat) : DriverRec :=
  { id := i, claimFn := fun dev scope descr => USBHostDriver.claim dev scope descr }

lemma defaultDriver_claim_false (i dev scope : Nat) (descr : List Nat) :
    (defaultDriver i).claimFn dev scope descr = false := rfl

lemma offerOne_claims (dev scope : Nat) (descr : List Nat) :
    ∀ (avail : List DriverRec) (b : DriverRec) (rest : List DriverRec),
      offerOne dev scope descr avail = some (b, rest) →
      b.claimFn dev scope descr = true := by
  intro avail
  induction avail with
  | nil => intro b rest h; exact Option.noConfusion h
  | cons x tail ih =>
    intro b rest hoff
    by_cases hx : x.claimFn dev scope descr = true
    · rw [offerOne, if_pos hx] at hoff
      injection hoff with hpair
      have hb : x = b := congrArg Prod.fst hpair
      rw [← hb]
      exact hx
    · rw [offerOne, if_neg hx] at hoff
      cases hrec : offerOne dev scope descr tail with
      | none => rw [hrec] at hoff; exact Option.noConfusion hoff
      | some pr =>
        obtain ⟨b2, rest2⟩ := pr
        rw [hrec] at hoff
        injection hoff with hpair
        have hb : b2 = b := congrArg Prod.fst hpair
        rw [← hb]
        exact ih b2 rest2 hrec

lemma offerOne_keeps (dev scope : Nat) (descr : List Nat) (d : DriverRec)
    (hd : d.claimFn dev scope descr = false) :
    ∀ (avail : List DriverRec) (b : DriverRec) (rest : List DriverRec),
      d ∈ avail → offerOne dev scope descr avail = some (b, rest) →
      d ∈ rest := by
  intro avail
  induction avail with
  | nil => intro b rest hmem _; exact absurd hmem (List.not_mem_nil d)
  | cons x tail ih =>
    intro b rest hmem hoff
    by_cases hx : x.claimFn dev scope descr = true
    · rw [offerOne, if_pos hx] at hoff
      injection hoff with hpair
      have hrest : tail = rest := congrArg Prod.snd hpair
      rcases List.mem_cons.mp hmem with hdx | hdtail
      · exfalso
        rw [hdx, hx] at hd
        exact Bool.noConfusion hd
      · rw [← hrest]; exact hdtail
    · rw [offerOne, if_neg hx] at hoff
      cases hrec : offerOne dev scope descr tail with
      | none => rw [hrec] at hoff; exact Option.noConfusion hoff
      | some pr =>
        obtain ⟨b2, rest2⟩ := pr
        rw [hrec] at hoff
        injection hoff with hpair
        have hrest : x :: rest2 = rest := congrArg Prod.snd hpair
        rcases List.mem_cons.mp hmem with hdx | hdtail
        · rw [← hrest, hdx]
          exact List.mem_cons_self x rest2
        · rw [← hrest]
          exact List.mem_cons_of_mem x (ih b2 rest2 hdtail hrec)

lemma claimIfaces_never_default (dev : Nat) (d : DriverRec)
    (hd : ∀ a b c2, d.claimFn a b c2 = false) :
    ∀ (groupings : List (Nat × List Nat)) (avail : List DriverRec),
      d ∈ avail →
      d ∉ (claimIfaces dev avail groupings).1 ∧
      d ∈ (claimIfaces dev avail groupings).2 := by
  intro groupings
  induction groupings with
  | nil =>
    intro avail hmem
    exact ⟨List.not_mem_nil d, hmem⟩
  | cons g rest ih =>
    intro avail hmem
    cases hoff : offerOne dev g.1 g.2 avail with
    | none =>
      simp only [claimIfaces, hoff]
      exact ih avail hmem
    | some pr =>
      obtain ⟨b, remaining⟩ := pr
      have hbneq : b ≠ d := by
        intro he
        have := offerOne_claims dev g.1 g.2 avail b remaining hoff
        rw [he, hd dev g.1 g.2] at this
        exact Bool.noConfusion this
      have hdrem : d ∈ remaining :=
        offerOne_keeps dev g.1 g.2 d (hd dev g.1 g.2) avail b remaining hmem hoff
      have hrec := ih remaining hdrem
      simp only [claimIfaces, hoff]
      constructor
      · intro hmem2
        rcases List.mem_cons.mp hmem2 with h1 | h2
        · exact hbneq h1.symm
        · exact hrec.1 h2
      · exact hrec.2

/-- C10. The base-class capability implementations are inert: the
default claim returns false for every device, scope and descriptor
argument, the default control returns false for every transfer, and a
driver that overrides neither is never bound by any claim pass — it
stays on the available list wherever it sits among the registered
drivers, for every device and configuration offered. -/
theorem default_capabilities_inert :
    (∀ device scope descriptors,
      USBHostDriver.claim device scope descriptors = false) ∧
    (∀ transfer, USBHostDriver.control transfer = false) ∧
    (∀ i dev devDescr groupings avail1 avail2,
      defaultDriver i ∉
        (claim_drivers dev (avail1 ++ defaultDriver i :: avail2)
          devDescr groupings).1 ∧
      defaultDriver i ∈
        (claim_drivers dev (avail1 ++ defaultDriver i :: avail2)
          devDescr groupings).2) := by
  refine ⟨fun _ _ _ => rfl, fun _ => rfl, ?_⟩
  intro i dev devDescr groupings avail1 avail2
  have hd : ∀ a b c2, (defaultDriver i).claimFn a b c2 = false :=
    fun _ _ _ => rfl
  have hmem : defaultDriver i ∈ avail1 ++ defaultDriver i :: avail2 :=
    List.mem_append.mpr (Or.inr (List.mem_cons_self _ _))
  cases hoff : offerOne dev 0 devDescr (avail1 ++ defaultDriver i :: avail2) with
  | none =>
    simp only [claim_drivers, hoff]
    exact claimIfaces_never_default dev (defaultDriver i) hd groupings _ hmem
  | some pr =>
    obtain ⟨b, rest⟩ := pr
    have hbneq : b ≠ defaultDriver i := by
      intro he
      have := offerOne_claims dev 0 devDescr _ b rest hoff
      rw [he, hd dev 0 devDescr] at this
      exact Bool.noConfusion this
    have hdrest : defaultDriver i ∈ rest :=
      offerOne_keeps dev 0 devDescr (defaultDriver i) (hd dev 0 devDescr)
        _ b rest hmem hoff
    simp only [claim_drivers, hoff]
    constructor
    · intro hmem2
      rcases List.mem_cons.mp hmem2 with h1 | h2
      · exact hbneq h1.symm
      · exact absurd h2 (List.not_mem_nil _)
    · exact hdrest

/-! ## Enumeration failure path (C8)

Modelled from the spec: the body of `USBHost::enumeration` (declared at
src/USBHost.h line 144) is not among the available sources.  Per spec
section 4.5, each enumeration step issues one control request and
advances on its completion callback; on a control-transfer error the
state machine retries up to a bounded budget, and when the budget is
exhausted it abandons enumeration: the partially built Device goes back
to its pool, no driver is ever bound, and the control pipe is unlinked
so no further completions are dispatched for it. -/

structure EnumState where
  deviceAllocated : Bool
  retries : Nat
  boundDrivers : List Nat
  active : Bool
  callbacks : Nat
  poolFree : Nat
deriving DecidableEq, Repr

inductive EnumEvent where
  | ok
  | err

/-- Modelled from the spec: handling of one control-transfer completion
on the device's control pipe during enumeration.  Once the device has
been abandoned (slot returned to the pool, control pipe unlinked) no
completion is dispatched any more, so the state no longer changes. -/
def enumStep (budget : Nat) (s : EnumState) : EnumEvent → EnumState
  | .ok =>
    if s.deviceAllocated then
      { s with callbacks := s.callbacks + 1, retries := 0, active := true }
    else s
  | .err =>
    if s.deviceAllocated then
      if s.retries < budget then
        { s with callbacks := s.callbacks + 1, retries := s.retries + 1 }
      else
        { deviceAllocated := false, retries := s.retries,
          boundDrivers := [], active := false,
          callbacks := s.callbacks + 1, poolFree := s.poolFree + 1 }
    else s

def runEnum (budget : Nat) (s : EnumState) : List EnumEvent → EnumState
  | [] => s
  | e :: evs => runEnum budget (enumStep budget s e) evs

/-- Enumeration underway: Device slot held, `j` consecutive failed
attempts of the current control request so far. -/
def errState (pf j : Nat) : EnumState :=
  { deviceAllocated := true, retries := j, boundDrivers := [],
    active := false, callbacks := j, poolFree := pf }

/-- Fresh enumeration of a newly attached device: GetDescriptor(Device)
issued, no completion yet, no retries used. -/
def initEnum (pf : Nat) : EnumState := errState pf 0

lemma enumStep_frozen (budget : Nat) (s : EnumState)
    (h : s.deviceAllocated = false) (e : EnumEvent) :
    enumStep budget s e = s := by
  cases e <;> simp [enumStep, h]

lemma runEnum_frozen (budget : Nat) (evs : List EnumEvent) :
    ∀ s : EnumState, s.deviceAllocated = false → runEnum budget s evs = s := by
  induction evs with
  | nil => intro s _; rfl
  | cons e evs ih =>
    intro s h
    show runEnum budget (enumStep budget s e) evs = s
    rw [enumStep_frozen budget s h e]
    exact ih s h

lemma runEnum_errs (budget pf : Nat) :
    ∀ k j, j + k ≤ budget →
      runEnum budget (errState pf j) (List.replicate k .err) =
        errState pf (j + k) := by
  intro k
  induction k with
  | zero => intro j _; rfl
  | succ k ih =>
    intro j hjk
    have hj : j < budget := by omega
    have hstep : enumStep budget (errState pf j) .err = errState pf (j + 1) := by
      simp [enumStep, errState, hj]
    show runEnum budget (enumStep budget (errState pf j) .err)
        (List.replicate k .err) = _
    rw [hstep, ih (j + 1) (by omega)]
    have : j + 1 + k = j + (k + 1) := by omega
    rw [this]

lemma runEnum_append (budget : Nat) (l1 l2 : List EnumEvent) :
    ∀ s, runEnum budget s (l1 ++ l2) = runEnum budget (runEnum budget s l1) l2 := by
  induction l1 with
  | nil => intro s; rfl
  | cons e l1 ih => intro s; exact ih (enumStep budget s e)

/-- C8. When the control request fails budget+1 consecutive times (the
bounded retry budget is exhausted by a persistent failure), enumeration
is abandoned: the Device slot is back in its pool (pool free count up
by one, record no longer held), no driver was ever bound, the device
never became active, and no completion is ever dispatched for that
device's control pipe afterwards — every later event leaves the state
untouched. -/
theorem enumeration_abandon_spec (budget pf : Nat) :
    (runEnum budget (initEnum pf)
        (List.replicate (budget + 1) .err)).deviceAllocated = false ∧
    (runEnum budget (initEnum pf)
        (List.replicate (budget + 1) .err)).poolFree = pf + 1 ∧
    (runEnum budget (initEnum pf)
        (List.replicate (budget + 1) .err)).boundDrivers = [] ∧
    (runEnum budget (initEnum pf)
        (List.replicate (budget + 1) .err)).active = false ∧
    (∀ evs, runEnum budget
        (runEnum budget (initEnum pf) (List.replicate (budget + 1) .err)) evs =
      runEnum budget (initEnum pf) (List.replicate (budget + 1) .err)) := by
  have hsplit : List.replicate (budget + 1) EnumEvent.err =
      List.replicate budget EnumEvent.err ++ [EnumEvent.err] := by
    rw [List.replicate_succ']
  have hpref : runEnum budget (initEnum pf) (List.replicate budget .err) =
      errState pf budget := by
    have := runEnum_errs budget pf budget 0 (by omega)
    simpa [initEnum] using this
  have hlast : enumStep budget (errState pf budget) .err =
      { deviceAllocated := false, retries := budget, boundDrivers := [],
        active := false, callbacks := budget + 1, poolFree := pf + 1 } := by
    simp [enumStep, errState]
  have hfull : runEnum budget (initEnum pf) (List.replicate (budget + 1) .err) =
      { deviceAllocated := false, retries := budget, boundDrivers := [],
        active := false, callbacks := budget + 1, poolFree := pf + 1 } := by
    rw [hsplit, runEnum_append, hpref]
    show runEnum budget (enumStep budget (errState pf budget) .err) [] = _
    rw [hlast]
    rfl
  rw [hfull]
  exact ⟨rfl, rfl, rfl, rfl, fun evs => runEnum_frozen budget evs _ rfl⟩

/-! ## Pipe unlink handshake (C9)

Modelled from the spec: the body of `USBHost::free_Pipe` (declared at
src/USBHost.h lines 152-153) and the unlink path are not among the
available sources.  Per spec sections 4.2 and 5, unlinking a queue head
the controller may still be walking requires the documented
doorbell/async-advance handshake: software removes the QH from the
schedule and rings the doorbell, and only after the hardware raises the
async-advance confirmation may the queue-head memory be reclaimed.  The
two execution contexts (normal context and hardware/interrupt) are
modelled as interleaved events. -/

inductive QHPhase where
  | linked
  | unlinkPending
  | confirmedUnlinked
  | reclaimed
deriving DecidableEq, Repr

structure UnlinkState where
  phase : QHPhase
  hwMayAccess : Bool
deriving DecidableEq, Repr

inductive UnlinkEvent where
  | startUnlink
  | hwAdvance
  | reclaim
  | hwWalk
deriving DecidableEq, Repr

/-- Modelled from the spec: one step of the unlink protocol.  Software
starts the unlink (removes the QH from the schedule and rings the
doorbell); the hardware's async-advance acknowledgement is the only
transition that clears its possible reference to the QH; reclamation of
the queue-head memory is gated on that confirmation, so a premature
reclaim attempt does nothing. -/
def unlinkStep (s : UnlinkState) : UnlinkEvent → UnlinkState
  | .startUnlink =>
    if s.phase = .linked then { s with phase := .unlinkPending } else s
  | .hwAdvance =>
    if s.phase = .unlinkPending then
      { phase := .confirmedUnlinked, hwMayAccess := false }
    else s
  | .reclaim =>
    if s.phase = .confirmedUnlinked then { s with phase := .reclaimed } else s
  | .hwWalk => s

def runUnlink (s : UnlinkState) : List UnlinkEvent → UnlinkState
  | [] => s
  | e :: evs => runUnlink (unlinkStep s e) evs

/-- A pipe the controller may still be processing. -/
def initUnlink : UnlinkState := { phase := .linked, hwMayAccess := true }

lemma runUnlink_needs_ack (evs : List UnlinkEvent) :
    ∀ s : UnlinkState,
      (s.phase = .linked ∨ s.phase = .unlinkPending) →
      (runUnlink s evs).phase = .reclaimed →
      UnlinkEvent.hwAdvance ∈ evs := by
  induction evs with
  | nil =>
    intro s hs hrec
    simp only [runUnlink] at hrec
    rcases hs with h | h <;> rw [h] at hrec <;> exact absurd hrec (by decide)
  | cons e evs ih =>
    intro s hs hrec
    cases e with
    | startUnlink =>
      apply List.mem_cons_of_mem
      apply ih (unlinkStep s .startUnlink) _ hrec
      rcases hs with h | h <;> simp [unlinkStep, h]
    | hwAdvance => exact List.mem_cons_self _ _
    | reclaim =>
      apply List.mem_cons_of_mem
      apply ih (unlinkStep s .reclaim) _ hrec
      rcases hs with h | h <;> simp [unlinkStep, h]
    | hwWalk =>
      apply List.mem_cons_of_mem
      exact ih s hs hrec

/-- Queue-head memory safety invariant: once past the handshake, the
hardware can no longer reach the queue head. -/
def UInv (s : UnlinkState) : Prop :=
  (s.phase = .confirmedUnlinked ∨ s.phase = .reclaimed) → s.hwMayAccess = false

lemma unlinkStep_inv (s : UnlinkState) (h : UInv s) (e : UnlinkEvent) :
    UInv (unlinkStep s e) := by
  cases e with
  | startUnlink =>
    by_cases hp : s.phase = .linked
    · simp only [unlinkStep, if_pos hp]
      intro hc
      rcases hc with hc | hc <;> exact QHPhase.noConfusion hc
    · simpa [unlinkStep, hp] using h
  | hwAdvance =>
    by_cases hp : s.phase = .unlinkPending
    · simp only [unlinkStep, if_pos hp]
      intro _; rfl
    · simpa [unlinkStep, hp] using h
  | reclaim =>
    by_cases hp : s.phase = .confirmedUnlinked
    · simp only [unlinkStep, if_pos hp]
      intro _
      exact h (Or.inl hp)
    · simpa [unlinkStep, hp] using h
  | hwWalk => exact h

lemma runUnlink_inv (evs : List UnlinkEvent) :
    ∀ s : UnlinkState, UInv s → UInv (runUnlink s evs) := by
  induction evs with
  | nil => intro s h; exact h
  | cons e evs ih => intro s h; exact ih _ (unlinkStep_inv s h e)

/-- C9. Under every interleaving of normal-context and
hardware-context events, if the queue head of a pipe the controller was
processing ends up reclaimed, then the hardware's async-advance
doorbell acknowledgement occurred before, and at that point the
hardware can no longer access the queue-head memory: reclamation never
happens while the hardware may still reference the QH. -/
theorem free_Pipe_unlink_spec (evs : List UnlinkEvent)
    (h : (runUnlink initUnlink evs).phase = .reclaimed) :
    UnlinkEvent.hwAdvance ∈ evs ∧
    (runUnlink initUnlink evs).hwMayAccess = false := by
  constructor
  · exact runUnlink_needs_ack evs initUnlink (Or.inl rfl) h
  · have hinv0 : UInv initUnlink := by
      intro hc
      rcases hc with hc | hc <;> exact QHPhase.noConfusion hc
    exact runUnlink_inv evs initUnlink hinv0 (Or.inr h)

/-- Witness for C9: the full handshake — start unlink, hardware walks
on, async-advance acknowledgement, reclaim. -/
theorem free_Pipe_unlink_spec_witness :
    (runUnlink initUnlink
        [.startUnlink, .hwWalk, .hwAdvance, .reclaim]).phase = .reclaimed ∧
    (UnlinkEvent.hwAdvance ∈
        [UnlinkEvent.startUnlink, .hwWalk, .hwAdvance, .reclaim] ∧
      (runUnlink initUnlink
        [.startUnlink, .hwWalk, .hwAdvance, .reclaim]).hwMayAccess = false) :=
  ⟨by decide,
   free_Pipe_unlink_spec [.startUnlink, .hwWalk, .hwAdvance, .reclaim]
     (by decide)⟩

end USBHost_t36

